import Mathlib

/-!
# Verification of the conserved-moieties core (`amici/conserved_moieties.py`)

A shallow embedding, over exact rationals, of the functions `qsort`, `kernel`,
`fill`, the Metropolis acceptance step of `MonteCarlo`, `LinearDependence`
and `Relaxation` from `src/python/amici/conserved_moieties.py`, together with
theorems settling the frozen claims about them.

Floating-point values of the source are modelled as rationals (`ℚ`); the
tolerance constants `MIN = 1e-9` and `MAX = 1e9` are the corresponding exact
rationals.  The transcendental quantities of the Metropolis acceptance test
(`math.exp` / `math.pow`) are modelled over `ℝ`.  Python runtime errors
(`IndexError`, `TypeError`, `NameError`, failing `assert`) are modelled with
`Except String`.
-/

namespace ConservedMoieties

/-- `MIN = 1e-9`, the near-zero tolerance used throughout the module. -/
def MIN : ℚ := 1 / 1000000000

/-- `MAX = 1e9`, the sentinel pivot value for an empty sparse row. -/
def MAX : ℚ := 1000000000

/-- Pivot-key lookup `pivots[o]`.  Out-of-range reads (which would raise in
Python) default to `0`; every claim is stated on inputs where all reads are
in range. -/
def key (pivots : List ℚ) (o : ℕ) : ℚ := pivots.getD o 0

/-- One partition pass of `qsort` (source lines 26-44).  Scanning the window
`orders[km:k]` while skipping the pivot position `km + (k - km) / 2`, the
source moves the elements whose key is `<` the pivot key to the front of a
fresh buffer in scan order (`l` increasing) and the remaining elements to the
back in reverse scan order (`p` decreasing), finally writing the pivot element
at the boundary slot `p`.  The resulting window is therefore
`less ++ pivotElem :: geq.reverse`, and `centre = km + less.length`. -/
def qsortPart (pivots : List ℚ) (k km : ℕ) (orders : List ℕ) : List ℕ × ℕ :=
  let pivElem := orders.getD (km + (k - km) / 2) 0
  let pv := key pivots pivElem
  let win := (orders.take k).drop km
  let rest := win.eraseIdx ((k - km) / 2)
  let less := rest.filter fun o => decide (key pivots o < pv)
  let geq := rest.filter fun o => !decide (key pivots o < pv)
  (orders.take km ++ (less ++ pivElem :: geq.reverse) ++ orders.drop k,
    km + less.length)

/-- The recursive quicksort `qsort(k, km, orders, pivots)` of the source
(lines 13-46), with an explicit structural fuel so that the definition
computes by kernel reduction.  Every recursive call of the source strictly
shrinks the window `[km, k)`, so fuel `k - km` always suffices; `qsort`
below supplies exactly that. -/
def qsortF (pivots : List ℚ) : ℕ → ℕ → ℕ → List ℕ → List ℕ
  | 0, _, _, orders => orders
  | fuel + 1, k, km, orders =>
    if 1 ≤ k - km then
      let pr := qsortPart pivots k km orders
      qsortF pivots fuel pr.2 km (qsortF pivots fuel k (pr.2 + 1) pr.1)
    else orders

/-- `qsort(k, km, orders, pivots)`: sorts the window `orders[km:k]` in place
so that the keys `pivots[orders[i]]` are ascending. -/
def qsort (pivots : List ℚ) (k km : ℕ) (orders : List ℕ) : List ℕ :=
  qsortF pivots (k - km) k km orders

/-- Modelled from the spec: the reference ordering of the claim, "a stable
sort of the same key array" — the window `orders[km:k]` stably sorted by
ascending key (Mathlib's insertion sort, which is stable), entries outside
the window unchanged. -/
def stableSortSpec (pivots : List ℚ) (k km : ℕ) (orders : List ℕ) : List ℕ :=
  orders.take km ++
    (((orders.take k).drop km).insertionSort
      fun a b => key pivots a ≤ key pivots b) ++
    orders.drop k

/-- The key ordering on indices: `a` before `b` iff `pivots[a] ≤ pivots[b]`. -/
def keyLE (pivots : List ℚ) (a b : ℕ) : Prop := key pivots a ≤ key pivots b

/-! ## The kernel engine (`kernel`, source lines 49-211) -/

/-- `rows[i].append(x)` on a list of lists, as in the sparse-row updates of
the source. -/
def appendEntry (rows : List (List α)) (i : ℕ) (x : α) : List (List α) :=
  rows.set i (rows.getD i [] ++ [x])

/-- State of the scan of `stoichiometricMatrixAsList` (source lines 79-86):
`il` is the current reaction index, `jl` the current metabolite index. -/
structure BuildState where
  matrix : List (List ℕ)
  matrix2 : List (List ℚ)
  il : ℕ
  jl : ℕ
deriving DecidableEq

/-- One step of the input scan (source lines 79-86): a nonzero value is
appended to the sparse row of metabolite `jl` with column `il`; the
metabolite counter wraps at `N`, incrementing the reaction counter. -/
def buildStep (N : ℕ) (st : BuildState) (val : ℚ) : BuildState :=
  let st :=
    if val ≠ 0 then
      { st with matrix := appendEntry st.matrix st.jl st.il
                matrix2 := appendEntry st.matrix2 st.jl val }
    else st
  if st.jl + 1 = N then { st with jl := 0, il := st.il + 1 }
  else { st with jl := st.jl + 1 }

/-- The full input scan, starting from `N` empty sparse rows. -/
def buildMatrix (vals : List ℚ) (N : ℕ) : BuildState :=
  vals.foldl (buildStep N) ⟨List.replicate N [], List.replicate N [], 0, 0⟩

/-- The minimum over a sparse row of `|coeffs[0] / coeffs[i]|` (source lines
101-115), starting from `init` (`1e8` in `kernel`, `MAX` in
`LinearDependence`); the guard `len(matrix[...]) > 1` of the source is the
guard on the row length here (the index and coefficient lists are parallel,
so their lengths agree). -/
def minRatio (init : ℚ) (coeffs : List ℚ) : ℚ :=
  if 1 < coeffs.length then
    coeffs.foldl
      (fun m c => if |coeffs.headD 0 / c| < m then |coeffs.headD 0 / c| else m)
      init
  else init

/-- One step `j` of the tie-breaking pass (source lines 98-120): when two
adjacent rows share a pivot, the one with the larger minimum ratio is moved
to position `j + 1` (it will be the row rewritten by the merge). -/
def swapStep (initRatio : ℚ) (matrix2 : List (List ℚ)) (pivots : List ℚ)
    (orders : List ℕ) (j : ℕ) : List ℕ :=
  let o := orders.getD j 0
  let o1 := orders.getD (j + 1) 0
  if key pivots o1 = key pivots o ∧ key pivots o ≠ MAX then
    let min1 := minRatio initRatio (matrix2.getD o [])
    let min2 := minRatio initRatio (matrix2.getD o1 [])
    if min1 < min2 then (orders.set j o1).set (j + 1) o else orders
  else orders

/-- The tie-breaking pass over `j in range(numPairs)` (`numPairs = N - 1` in
`kernel`, `K - 1` in `LinearDependence`). -/
def swapPass (initRatio : ℚ) (numPairs : ℕ) (matrix2 : List (List ℚ))
    (pivots : List ℚ) (orders : List ℕ) : List ℕ :=
  (List.range numPairs).foldl (swapStep initRatio matrix2 pivots) orders

/-- State of the elimination pass: the sparse matrix, its coefficients, the
pivot cache and the flag `ok` (`ok = true` means the Python `ok == 1`:
no merge has happened in this pass). -/
structure MergeState where
  matrix : List (List ℕ)
  matrix2 : List (List ℚ)
  pivots : List ℚ
  ok : Bool
deriving DecidableEq

/-- One step `j` of the elimination pass (source lines 123-147 and, with
`colLen = N`, 338-362): two adjacent rows with the same pivot are merged,
the row at `orders[j + 1]` being replaced by `g` times its own tail minus
the tail of the other row, entries of magnitude `≤ MIN` being dropped. -/
def mergeStep (colLen : ℕ) (orders : List ℕ) (st : MergeState) (j : ℕ) :
    MergeState :=
  let k2 := orders.getD j 0
  let k1 := orders.getD (j + 1) 0
  if key st.pivots k1 = key st.pivots k2 ∧ key st.pivots k2 ≠ MAX then
    let row1 := st.matrix.getD k1 []
    let coe1 := st.matrix2.getD k1 []
    let row2 := st.matrix.getD k2 []
    let coe2 := st.matrix2.getD k2 []
    let g := coe2.headD 0 / coe1.headD 0
    let col0 := List.replicate colLen (0 : ℚ)
    let col1 := (row1.zip coe1).tail.foldl (fun c e => c.set e.1 (e.2 * g)) col0
    let col2 := (row2.zip coe2).tail.foldl
      (fun c e => c.set e.1 (c.getD e.1 0 - e.2)) col1
    let newRow := (List.range colLen).filter fun i => decide (MIN < |col2.getD i 0|)
    let newCoe := newRow.map fun i => col2.getD i 0
    { matrix := st.matrix.set k1 newRow
      matrix2 := st.matrix2.set k1 newCoe
      pivots := st.pivots.set k1
        (if newRow ≠ [] then ((newRow.headD 0 : ℕ) : ℚ) else MAX)
      ok := false }
  else st

/-- The elimination pass over `j in range(numPairs)`. -/
def mergePass (colLen numPairs : ℕ) (orders : List ℕ) (matrix : List (List ℕ))
    (matrix2 : List (List ℚ)) (pivots : List ℚ) : MergeState :=
  (List.range numPairs).foldl (mergeStep colLen orders)
    ⟨matrix, matrix2, pivots, true⟩

/-- State of `kernel`'s main loop: sparse matrix, coefficients, row order and
pivot cache. -/
structure ElimState where
  matrix : List (List ℕ)
  matrix2 : List (List ℚ)
  orders : List ℕ
  pivots : List ℚ
deriving DecidableEq

/-- One iteration of `kernel`'s `while ok == 0` loop (source lines 96-147):
sort by pivot, tie-break, merge; returns the new state and the `ok` flag. -/
def elimIter (N M : ℕ) (st : ElimState) : ElimState × Bool :=
  let orders := qsort st.pivots N 0 st.orders
  let orders := swapPass 100000000 (N - 1) st.matrix2 st.pivots orders
  let ms := mergePass (N + M) (N - 1) orders st.matrix st.matrix2 st.pivots
  (⟨ms.matrix, ms.matrix2, orders, ms.pivots⟩, ms.ok)

/-- `kernel`'s `while ok == 0` loop, with explicit fuel.  Each iteration that
does not terminate the loop performs at least one merge, and every merge
strictly increases the pivot column of one row (or empties it), so
`N * (N + M) + 1` iterations always suffice; the fuel is set to that bound
by `kernelRaw`. -/
def elimLoop (N M : ℕ) : ℕ → ElimState → ElimState
  | 0, st => st
  | fuel + 1, st =>
    let it := elimIter N M st
    if it.2 then it.1 else elimLoop N M fuel it.1

/-- Extraction of the null-space rows (source lines 149-163): a row whose
columns are all `≥ M` (bookkeeping columns) is one conservation law; its
species are the column indices shifted down by `M`. -/
def extractRows (M : ℕ) (matrix : List (List ℕ)) (matrix2 : List (List ℚ)) :
    List (List ℕ × List ℚ) :=
  (matrix.zip matrix2).foldl
    (fun acc rc =>
      if rc.1 ≠ [] ∧ ∀ c ∈ rc.1, ¬ c < M then
        acc ++ [(rc.1.map (· - M), rc.2)]
      else acc)
    []

/-- Append each element of `xs` to `l` unless already present — the linear
"already contains" scan of the source (lines 176-184 and 192-200). -/
def dedupAppend (l : List ℕ) (xs : List ℕ) : List ℕ :=
  xs.foldl (fun acc s => if s ∈ acc then acc else acc ++ [s]) l

/-- State of the moiety-extraction loop (source lines 165-204). -/
structure MoietyState where
  matched : List ℕ
  intmatched : List ℕ
  NSolutions : List (List ℕ)
  NSolutions2 : List (List ℚ)
  i2 : ℕ
deriving DecidableEq

/-- One step of the moiety-extraction loop (source lines 170-203) for one
null-space row: species of every row enter `matched`; a row qualifies as a
moiety iff no two coefficients have opposite signs (`ok2`), in which case the
absolute coefficients, normalised by their minimum, are stored at index `i2`
and the species enter `intmatched`. -/
def moietyStep (st : MoietyState) (rc : List ℕ × List ℚ) : MoietyState :=
  let ok2 := ¬ ∃ c ∈ rc.2, c * rc.2.headD 0 < 0
  let matched := dedupAppend st.matched rc.1
  if ok2 ∧ rc.1 ≠ [] then
    let absCoe := rc.2.map fun c => |c|
    let minv := absCoe.foldl (fun m c => if c < m then c else m) MAX
    { matched := matched
      intmatched := dedupAppend st.intmatched rc.1
      NSolutions := st.NSolutions.set st.i2 rc.1
      NSolutions2 := st.NSolutions2.set st.i2 (absCoe.map (· / minv))
      i2 := st.i2 + 1 }
  else { st with matched := matched }

/-- The tuple returned by `kernel` (source lines 210-211). -/
structure KernelResult where
  kernelDim : ℕ
  matched : List ℕ
  intKernelDim : ℕ
  intmatched : List ℕ
  NSolutions : List (List ℕ)
  NSolutions2 : List (List ℚ)
deriving DecidableEq

/-- The elimination phase of `kernel` (source lines 65-147): build the
sparse rows with their bookkeeping entries `(M + i, 1)`, initialise the
pivot cache and run the elimination loop. -/
def kernelElim (vals : List ℚ) (N M : ℕ) : ElimState :=
  let b := buildMatrix vals N
  let matrix := (List.range N).map fun i => b.matrix.getD i [] ++ [M + i]
  let matrix2 := (List.range N).map fun i => b.matrix2.getD i [] ++ [1]
  let pivots := (List.range N).map fun i =>
    if matrix.getD i [] ≠ [] then (((matrix.getD i []).headD 0 : ℕ) : ℚ)
    else MAX
  elimLoop N M (N * (N + M) + 1) ⟨matrix, matrix2, List.range N, pivots⟩

/-- The null-space rows found by `kernel` (source lines 149-163). -/
def kernelRows (vals : List ℚ) (N M : ℕ) : List (List ℕ × List ℚ) :=
  extractRows M (kernelElim vals N M).matrix (kernelElim vals N M).matrix2

/-- The computation of `kernel` (source lines 65-204): the elimination
phase, the null-space rows, then the moiety-extraction loop. -/
def kernelRaw (vals : List ℚ) (N M : ℕ) : KernelResult :=
  let rs := kernelRows vals N M
  let ms := rs.foldl moietyStep ⟨[], [], List.replicate N [], List.replicate N [], 0⟩
  ⟨rs.length, ms.matched, ms.i2, ms.intmatched, ms.NSolutions, ms.NSolutions2⟩

/-- `kernel` itself: the computation followed by the two `assert` statements
of the source (lines 206-209); a failing assertion is the only way this
function can fail on inputs of length `≤ N * M`. -/
def kernel (vals : List ℚ) (N M : ℕ) : Except String KernelResult :=
  let r := kernelRaw vals N M
  if r.intKernelDim ≤ r.kernelDim then
    if r.NSolutions.length = r.NSolutions2.length then Except.ok r
    else Except.error "AssertionError: Inconsistent number of conserved quantities in coefficients and species"
  else Except.error "AssertionError: intKernelDim <= kernelDim"

/-- The dot product of a stored moiety (parallel species/coefficient lists)
with reaction column `r` of the input matrix, the quantity of the zero-dot
invariant: `Σ_j coeffs[j] * input[r * N + species[j]]`. -/
def moietyDot (vals : List ℚ) (N : ℕ) (species : List ℕ) (coeffs : List ℚ)
    (r : ℕ) : ℚ :=
  ((species.zip coeffs).map fun sc => sc.2 * vals.getD (r * N + sc.1) 0).sum

/-! ## The interaction-graph builder (`fill`, source lines 214-269) -/

/-- State of the matched-row scan of `fill` (source lines 234-249) and of the
analogous scan of `Relaxation` (lines 555-571). -/
structure FillBuildState where
  matrix : List (List ℕ)
  matrix2 : List (List ℚ)
  i1 : ℕ
  j1 : ℕ
deriving DecidableEq

/-- One step of the matched-row scan: a nonzero value of metabolite `j1` is
stored in row `prendo`, the position of `j1` in `matched` (the source scans
all of `matched`; the last match wins). -/
def fillBuildStep (N dim : ℕ) (matched : List ℕ) (st : FillBuildState)
    (val : ℚ) : FillBuildState :=
  let st :=
    if val ≠ 0 then
      let prendo := (List.range dim).foldl
        (fun p i => if st.j1 = matched.getD i 0 then i else p) dim
      if prendo < dim then
        { st with matrix := appendEntry st.matrix prendo st.i1
                  matrix2 := appendEntry st.matrix2 prendo val }
      else st
    else st
  if st.j1 + 1 = N then { st with j1 := 0, i1 := st.i1 + 1 }
  else { st with j1 := st.j1 + 1 }

/-- The adjacency lists and field terms built by `fill`. -/
structure FillState where
  J : List (List ℕ)
  J2 : List (List ℚ)
  fields : List ℚ
deriving DecidableEq

/-- The body of `fill`'s pair loop for one pair `(i, j)` (source lines
253-268).  The running sum `interactions` is threaded through the `po` loop;
as in the source, the block that stores the diagonal into `fields` or appends
to the adjacency lists sits *inside* the `po` loop, so it executes once per
entry of row `i`, on the running prefix sum. -/
def fillPair (matrix : List (List ℕ)) (matrix2 : List (List ℚ)) (st : FillState)
    (i j : ℕ) : FillState :=
  let rowi := matrix.getD i []
  let coei := matrix2.getD i []
  let rowj := matrix.getD j []
  let coej := matrix2.getD j []
  ((List.range rowi.length).foldl
    (fun (s : ℚ × FillState) po =>
      let inter :=
        if rowj ≠ [] then
          (List.range rowj.length).foldl
            (fun acc pu =>
              if rowi.getD po 0 = rowj.getD pu 0 then
                acc + coei.getD po 0 * coej.getD pu 0
              else acc)
            s.1
        else s.1
      if j = i then (inter, { s.2 with fields := s.2.fields.set i inter })
      else if MIN < |inter| then
        (inter,
          { s.2 with
              J := appendEntry (appendEntry s.2.J i j) j i
              J2 := appendEntry (appendEntry s.2.J2 i inter) j inter })
      else (inter, s.2))
    (0, st)).2

/-- `fill(stoichiometricMatrixAsList, matched_size, matched, N)` (source
lines 214-269): returns the adjacency lists `J`, the weights `J2` and the
diagonal field terms. -/
def fill (vals : List ℚ) (matched_size : ℕ) (matched : List ℕ) (N : ℕ) :
    List (List ℕ) × List (List ℚ) × List ℚ :=
  let dim := matched_size
  let b := vals.foldl (fillBuildStep N dim matched)
    ⟨List.replicate dim [], List.replicate dim [], 0, 0⟩
  let fin := (List.range dim).foldl
    (fun st i =>
      (List.range' i (dim - i)).foldl
        (fun st j => fillPair b.matrix b.matrix2 st i j) st)
    ⟨List.replicate N [], List.replicate N [], List.replicate N 0⟩
  (fin.J, fin.J2, fin.fields)

/-! ## The independence checker (`LinearDependence`, source lines 272-366) -/

/-- `LinearDependence(vectors, intkerneldim, NSolutions, NSolutions2,
matched, N)`.  The source stacks the `intkerneldim` stored moieties with the
candidate row built from `vectors` (entries `> MIN`, visited in the order of
`matched` sorted by value), then enters `while ok == 0:` — but the final
`return yes` of the source sits *inside* that loop, so exactly one
sort/tie-break/merge pass runs before the surviving rows are counted;
`yes = 1` iff no row vanished in that single pass. -/
def LinearDependence (vectors : List ℚ) (intkerneldim : ℕ)
    (NSolutions : List (List ℕ)) (NSolutions2 : List (List ℚ))
    (matched : List ℕ) (N : ℕ) : ℕ :=
  let K := intkerneldim + 1
  let orders2 := qsort (matched.map fun m => (m : ℚ)) matched.length 0
    (List.range matched.length)
  let cand := (List.range matched.length).foldl
    (fun (rc : List ℕ × List ℚ) i =>
      let o := orders2.getD i 0
      if MIN < vectors.getD o 0 then
        (rc.1 ++ [matched.getD o 0], rc.2 ++ [vectors.getD o 0])
      else rc)
    ([], [])
  let matrix := ((List.range (K - 1)).map fun i => NSolutions.getD i []) ++ [cand.1]
  let matrix2 := ((List.range (K - 1)).map fun i => NSolutions2.getD i []) ++ [cand.2]
  let pivots := (List.range K).map fun i =>
    if matrix.getD i [] ≠ [] then (((matrix.getD i []).headD 0 : ℕ) : ℚ)
    else MAX
  let orders := qsort pivots K 0 (List.range K)
  let orders := swapPass MAX (K - 1) matrix2 pivots orders
  let ms := mergePass N (K - 2) orders matrix matrix2 pivots
  let K1 := ((List.range K).filter fun i => decide (ms.matrix.getD i [] ≠ [])).length
  if K = K1 then 1 else 0

/-! ## The Metropolis step of `MonteCarlo` (source lines 425-443) -/

/-- The energy difference of a proposed move (source lines 434-437):
`Δ = 2p(fields[en]·num[en] + Σ_i J2[en][i]·num[J[en][i]]) + fields[en]`. -/
def mcDelta (fields : List ℚ) (J : List (List ℕ)) (J2 : List (List ℚ))
    (num : List ℤ) (en : ℕ) (p : ℤ) : ℚ :=
  let d1 := (List.range (J.getD en []).length).foldl
    (fun d i =>
      d + (J2.getD en []).getD i 0 *
        ((num.getD ((J.getD en []).getD i 0) 0 : ℤ) : ℚ))
    (fields.getD en 0 * ((num.getD en 0 : ℤ) : ℚ))
  2 * (p : ℚ) * d1 + fields.getD en 0

/-- The acceptance test of the source (line 439):
`delta < 0 or u < math.pow(e, delta)`, where `e` is the cached exponential
base (`e = math.exp(-1 / T1)` at the last time it was recomputed, source
lines 423, 450, 454). -/
def mcAccepts (eBase : ℝ) (delta : ℚ) (u : ℝ) : Prop :=
  delta < 0 ∨ u < eBase ^ (delta : ℝ)

/-- Modelled from the spec/claim: "Accept … if `Δ < 0` or with probability
`e^(Δ/T)`", i.e. accept iff `Δ < 0` or `u < e^(Δ/T)`. -/
def claimAccepts (T : ℝ) (delta : ℚ) (u : ℝ) : Prop :=
  delta < 0 ∨ u < Real.exp ((delta : ℝ) / T)

/-- The Metropolis update relation (source lines 439-442): given the chosen
species `en`, sign `p`, acceptance draw `u` and cached base `eBase`, the move
is applied (`num[en] += p`, `H += delta`) iff the acceptance test passes,
and the state is unchanged otherwise. -/
def MCMetropolis (fields : List ℚ) (J : List (List ℕ)) (J2 : List (List ℚ))
    (eBase : ℝ) (num : List ℤ) (H : ℚ) (en : ℕ) (p : ℤ) (u : ℝ)
    (out : List ℤ × ℚ) : Prop :=
  let delta := mcDelta fields J J2 num en p
  (mcAccepts eBase delta u ∧ out = (num.set en (num.getD en 0 + p), H + delta)) ∨
  (¬ mcAccepts eBase delta u ∧ out = (num, H))

/-! ## The relaxation fallback (`Relaxation`, source lines 530-772)

The source of `Relaxation` contains several statements that raise at run
time: `rigak[matrix[k]][a]` (line 647), `indip[matrix[i]][0]` (line 664),
`indip[matrix[t]][k]` (line 684) and `var[matrixb][j][i]` (line 748) index a
list *by a list* (`TypeError`), and `matrix_aus2[k2].append(val)` (line 708)
reads the name `k2`, which is only bound if a tie-break swap (line 598) or a
merge (line 607) happened earlier (`NameError` otherwise).  The embedding
models these failure points with `Except String`. -/

/-- A Python `IndexError` raised by `l[i]` with `i` out of range. -/
def getE (l : List α) (i : ℕ) : Except String α :=
  match l.get? i with
  | some a => Except.ok a
  | none => Except.error "IndexError: list index out of range"

/-- `rows[i].append(x)` with a bounds check (a Python `IndexError` when `i`
is out of range; Python's negative-index wrap cannot arise on the counters
used here). -/
def appendEntryE (rows : List (List α)) (i : ℕ) (x : α) :
    Except String (List (List α)) :=
  if i < rows.length then Except.ok (rows.set i (rows.getD i [] ++ [x]))
  else Except.error "IndexError: list index out of range"

/-- A Python `TypeError` from indexing a list by a list. -/
def typeErr : Except String α :=
  Except.error "TypeError: list indices must be integers, not list"

/-- The tie-break pass of `Relaxation` (source lines 580-600), over
`j in range(K)` — so `orders[j + 1]` can itself be out of range.  Unlike the
pass of `kernel`, the stored `min1` drops the absolute value (line 588), the
`min2` loop iterates over the length of row `orders[j]` while indexing row
`orders[j + 1]` (line 592), and `min2` takes the absolute value of the
numerator only (lines 595-596).  The fold also threads the last value
assigned to `k2` (line 598). -/
def relaxSwapStep (matrix : List (List ℕ)) (matrix2 : List (List ℚ))
    (pivots : List ℚ) (st : List ℕ × Option ℕ) (j : ℕ) :
    Except String (List ℕ × Option ℕ) := do
  let ord := st.1
  let oj ← getE ord j
  let oj1 ← getE ord (j + 1)
  if key pivots oj1 = key pivots oj ∧ key pivots oj ≠ MAX then
    let coj := matrix2.getD oj []
    let coj1 := matrix2.getD oj1 []
    let min1 :=
      if 1 < (matrix.getD oj []).length then
        (List.range (matrix.getD oj []).length).foldl
          (fun m i =>
            if |coj.headD 0 / coj.getD i 0| < m then coj.headD 0 / coj.getD i 0
            else m)
          MAX
      else MAX
    let min2 ←
      if 1 < (matrix.getD oj1 []).length then
        (List.range (matrix.getD oj []).length).foldlM
          (fun m i => do
            let c ← getE coj1 i
            pure (if |coj1.headD 0 / c| < m then |coj1.headD 0| / c else m))
          MAX
      else pure MAX
    if min1 < min2 then pure (((ord.set j oj1).set (j + 1) oj), some oj1)
    else pure (ord, st.2)
  else pure (ord, st.2)

/-- The merge pass of `Relaxation` (source lines 602-627), over
`j in range(K)` with columns `range(M)`; threads the last value assigned to
`k2` (line 607). -/
def relaxMergeStep (M : ℕ) (orders : List ℕ) (st : MergeState × Option ℕ)
    (j : ℕ) : Except String (MergeState × Option ℕ) := do
  let _ ← getE orders (j + 1)
  let k2 := orders.getD j 0
  let k1 := orders.getD (j + 1) 0
  if key st.1.pivots k1 = key st.1.pivots k2 ∧ key st.1.pivots k2 ≠ MAX then
    pure (mergeStep M orders st.1 j, some k2)
  else pure (st.1, st.2)

/-- `Relaxation(stoichiometricMatrixAsList, intmatched, M, N, ...)` (source
lines 530-772).  The outer `while ok == 0:` body ends in an unconditional
`return`, so it runs exactly once and is embedded as straight-line code.
The final projection loop (lines 742-767) either dereferences
`var[matrixb][j][i]` on the first nonempty constraint row — a `TypeError` —
or, with every row empty, finds `cmin = 1000 ≥ 0` on its first iteration,
sets `ok = 1` and breaks, so it needs no recursion either.  The parameters
`relaxationmax` and `relaxation_step` only govern that unreachable
projection arithmetic. -/
def Relaxation (vals : List ℚ) (intmatched : List ℕ) (M N : ℕ)
    (relaxationmax : ℕ) (relaxation_step : ℚ) : Except String ℕ := do
  let K := intmatched.length
  let b := vals.foldl (fillBuildStep N K intmatched)
    ⟨List.replicate N [], List.replicate N [], 0, 0⟩
  let matrix := b.matrix
  let matrix2 := b.matrix2
  let orders := List.range N
  let pivots := (List.range N).map fun i =>
    if matrix.getD i [] ≠ [] then (((matrix.getD i []).headD 0 : ℕ) : ℚ)
    else MAX
  -- one pass of the (degenerate) outer loop
  let orders := qsort pivots K 0 orders
  let sw ← (List.range K).foldlM (relaxSwapStep matrix matrix2 pivots)
    (orders, (none : Option ℕ))
  let orders := sw.1
  let mg ← (List.range K).foldlM (relaxMergeStep M orders)
    (⟨matrix, matrix2, pivots, true⟩, sw.2)
  let matrix := mg.1.matrix
  let matrix2 := mg.1.matrix2
  let k2opt := mg.2
  -- normalisation of each surviving row by its leading coefficient
  -- (source lines 629-633)
  let matrix2 := (List.range K).foldl
    (fun m2 i =>
      if matrix.getD i [] ≠ [] then
        m2.set i ((m2.getD i []).map (· / (m2.getD i []).headD 0))
      else m2)
    matrix2
  -- back-substitution (source lines 635-656): reaching the inner branch
  -- evaluates `rigak[matrix[k]][a]` (line 647) — a TypeError
  let _ ← ((List.range (K - 1)).reverse).foldlM
    (fun _ k1 => do
      let k := orders.getD k1 0
      if 1 < (matrix.getD k []).length then
        (List.range' 1 ((matrix.getD k []).length - 1)).foldlM
          (fun _ i =>
            (List.range' (k1 + 1) (K - (k1 + 1))).foldlM
              (fun _ j1 => do
                let j := orders.getD j1 0
                if matrix.getD j [] ≠ [] ∧
                    (matrix.getD j []).headD 0 = (matrix.getD k []).getD i 0 then
                  typeErr
                else pure ())
              ())
          ()
      else pure ())
    ()
  -- independent/dependent split (source lines 658-670): a nonempty row
  -- evaluates `indip[matrix[i]][0]` (line 664) — a TypeError
  let indip0 := List.replicate M (K + 1)
  let _ ← (List.range K).foldlM
    (fun _ i => if matrix.getD i [] ≠ [] then typeErr else pure ()) ()
  let im := (List.range M).foldl
    (fun (st : List ℕ × ℕ) i =>
      if st.1.getD i 0 = K + 1 then (st.1.set i (K + st.2), st.2 + 1) else st)
    (indip0, 0)
  let indip := im.1
  let M1 := im.2
  -- reduced-variable matrix (source lines 672-686): the dependent branch
  -- evaluates `indip[matrix[t]][k]` (line 684) — a TypeError
  let aus ← (List.range M).foldlM
    (fun (st : List (List ℕ) × List (List ℚ) × ℕ) i => do
      if K ≤ indip.getD i 0 then
        pure (appendEntry st.1 st.2.2 i, appendEntry st.2.1 st.2.2 (1 : ℚ),
          st.2.2 + 1)
      else
        let t := indip.getD i 0
        if 1 < (matrix.getD t []).length then typeErr
        else pure st)
    (List.replicate M1 [], List.replicate M1 [], 0)
  let matrixAus := aus.1
  let matrixAus2 := aus.2.1
  -- second input scan (source lines 691-713): `matrix_aus2[k2].append(val)`
  -- (line 708) reads the possibly-unbound `k2`; the counter `i1` is reset to
  -- 0 on line 696 and never incremented in this loop, so the appended row
  -- index is always 0; `k1` is an integer accumulating `prendo` (which can
  -- only stay `1` or drop per occurrence of `j1` in `intmatched`)
  let N1 := N - K
  let scan ← vals.foldlM
    (fun (st : List (List ℕ) × List (List ℚ) × ℤ × ℕ) val => do
      let maus := st.1
      let maus2 := st.2.1
      let k1 := st.2.2.1
      let j1 := st.2.2.2
      let prendo := intmatched.foldl
        (fun (p : ℤ) m => if j1 = m then p - 1 else p) 1
      let pr ←
        if val ≠ 0 ∧ prendo = 1 then do
          if k1 < 0 then typeErr
          else do
            let maus ← appendEntryE maus k1.toNat (0 : ℕ)
            match k2opt with
            | none => Except.error "NameError: name k2 is not defined"
            | some k2 => do
              let maus2 ← appendEntryE maus2 k2 val
              pure (maus, maus2)
        else pure (maus, maus2)
      if j1 + 1 = N then pure (pr.1, pr.2, 0, 0)
      else pure (pr.1, pr.2, k1 + prendo, j1 + 1))
    (List.replicate N1 [], List.replicate N1 [], (0 : ℤ), 0)
  let matrix_aus := scan.1
  let matrix_aus2 := scan.2.1
  -- the reduced inequality system (source lines 715-727)
  let mb := (List.range M1).foldl
    (fun (st : List (List ℕ) × List (List ℚ)) i =>
      (List.range N1).foldl
        (fun st j =>
          if 0 < (matrix_aus.getD j []).length * (matrixAus.getD i []).length then
            let prod := (List.range (matrixAus.getD i []).length).foldl
              (fun pr ib =>
                (List.range (matrix_aus.getD j []).length).foldl
                  (fun pr jb =>
                    if (matrixAus.getD i []).getD ib 0 =
                        (matrix_aus.getD j []).getD jb 0 then
                      pr + (matrixAus2.getD i []).getD ib 0 *
                        (matrix_aus2.getD j []).getD jb 0
                    else pr)
                  pr)
              0
            if MIN < |prod| then
              (appendEntry st.1 j i, appendEntry st.2 j prod)
            else st
          else st)
        st)
    (List.replicate N1 [], List.replicate N1 [])
  let matrixb := mb.1
  -- projection loop (source lines 737-767): see the docstring
  if (List.range N1).any (fun j => !decide (matrixb.getD j [] = [])) then typeErr
  else pure 1

/-- Decidable equality of `Except` values, needed to evaluate the embedded
functions that model Python runtime errors. -/
instance instDecEqExcept {ε α : Type} [DecidableEq ε] [DecidableEq α] :
    DecidableEq (Except ε α) := fun x y =>
  match x, y with
  | .error a, .error b =>
    if h : a = b then .isTrue (by rw [h]) else .isFalse (by simp [h])
  | .ok a, .ok b =>
    if h : a = b then .isTrue (by rw [h]) else .isFalse (by simp [h])
  | .error _, .ok _ => .isFalse (by simp)
  | .ok _, .error _ => .isFalse (by simp)

/-- The matrix described by the input list: entry `(r, j)` of the reactions ×
metabolites matrix is `vals[r * N + j]`. -/
def stoichMatrix (vals : List ℚ) (N M : ℕ) : Matrix (Fin M) (Fin N) ℚ :=
  Matrix.of fun r j => vals.getD (r * N + j) 0

/-! ## Shape lemmas for `kernel` (used by claims C7 and C10) -/

theorem getD_set_ne {α : Type} (l : List α) {i j : ℕ} (h : i ≠ j) (a d : α) :
    (l.set i a).getD j d = l.getD j d := by
  simp [List.getD_eq_getElem?_getD, List.getElem?_set_ne h]

theorem moietyStep_shape (st : MoietyState) (rc : List ℕ × List ℚ) :
    (moietyStep st rc).NSolutions.length = st.NSolutions.length ∧
    (moietyStep st rc).NSolutions2.length = st.NSolutions2.length ∧
    st.i2 ≤ (moietyStep st rc).i2 ∧ (moietyStep st rc).i2 ≤ st.i2 + 1 ∧
    ∀ j, (moietyStep st rc).i2 ≤ j →
      (moietyStep st rc).NSolutions.getD j [] = st.NSolutions.getD j [] ∧
      (moietyStep st rc).NSolutions2.getD j [] = st.NSolutions2.getD j [] := by
  simp only [moietyStep]
  split_ifs with h
  · refine ⟨List.length_set _ _ _, List.length_set _ _ _, Nat.le_succ _,
      le_refl _, ?_⟩
    intro j hj
    have hj' : st.i2 + 1 ≤ j := hj
    exact ⟨getD_set_ne _ (by omega) _ _, getD_set_ne _ (by omega) _ _⟩
  · exact ⟨rfl, rfl, le_refl _, Nat.le_succ _, fun j _ => ⟨rfl, rfl⟩⟩

theorem moietyFold_shape (rows : List (List ℕ × List ℚ)) :
    ∀ st : MoietyState,
    (rows.foldl moietyStep st).NSolutions.length = st.NSolutions.length ∧
    (rows.foldl moietyStep st).NSolutions2.length = st.NSolutions2.length ∧
    st.i2 ≤ (rows.foldl moietyStep st).i2 ∧
    (rows.foldl moietyStep st).i2 ≤ st.i2 + rows.length ∧
    ∀ j, (rows.foldl moietyStep st).i2 ≤ j →
      (rows.foldl moietyStep st).NSolutions.getD j [] = st.NSolutions.getD j [] ∧
      (rows.foldl moietyStep st).NSolutions2.getD j [] = st.NSolutions2.getD j [] := by
  induction rows with
  | nil => exact fun st => ⟨rfl, rfl, le_refl _, by simp, fun j _ => ⟨rfl, rfl⟩⟩
  | cons rc rest ih =>
    intro st
    obtain ⟨s1, s2, s3, s4, s5⟩ := moietyStep_shape st rc
    obtain ⟨f1, f2, f3, f4, f5⟩ := ih (moietyStep st rc)
    simp only [List.foldl_cons]
    refine ⟨f1.trans s1, f2.trans s2, le_trans s3 f3, by simp; omega, ?_⟩
    intro j hj
    obtain ⟨g1, g2⟩ := f5 j hj
    obtain ⟨g3, g4⟩ := s5 j (le_trans f3 hj)
    exact ⟨g1.trans g3, g2.trans g4⟩

theorem getD_replicate_nil {α : Type} (n j : ℕ) :
    (List.replicate n ([] : List α)).getD j [] = [] := by
  rcases Nat.lt_or_ge j n with h | h
  · simp [List.getD_eq_getElem?_getD, List.getElem?_replicate, h]
  · simp [List.getD_eq_getElem?_getD, List.getElem?_replicate,
      Nat.not_lt.mpr h]

theorem kernelRaw_shape (vals : List ℚ) (N M : ℕ) :
    (kernelRaw vals N M).NSolutions.length = N ∧
    (kernelRaw vals N M).NSolutions2.length = N ∧
    (kernelRaw vals N M).intKernelDim ≤ (kernelRaw vals N M).kernelDim ∧
    ∀ j, (kernelRaw vals N M).intKernelDim ≤ j →
      (kernelRaw vals N M).NSolutions.getD j [] = [] ∧
      (kernelRaw vals N M).NSolutions2.getD j [] = [] := by
  unfold kernelRaw
  simp only
  obtain ⟨f1, f2, f3, f4, f5⟩ := moietyFold_shape (kernelRows vals N M)
    ⟨[], [], List.replicate N [], List.replicate N [], 0⟩
  refine ⟨by simpa using f1, by simpa using f2, by simpa using f4, ?_⟩
  intro j hj
  obtain ⟨g1, g2⟩ := f5 j hj
  constructor
  · exact g1.trans (getD_replicate_nil N j)
  · exact g2.trans (getD_replicate_nil N j)

/-- `True` exactly on a normal (non-raising) result. -/
def exceptOk {ε α : Type} : Except ε α → Bool
  | .ok _ => true
  | .error _ => false

/-! ## Claim theorems -/

unseal Rat.add Rat.mul Rat.inv Rat.sub in
/-- C3: for the single reversible reaction A→B (`stoichiometricMatrixAsList
= [-1, 1]`, `N = 2`, `M = 1`), `kernel` returns `kernelDim = 1`,
`intKernelDim = 1` and exactly one moiety, engaging species `{0, 1}` with
coefficients `{1, 1}`. -/
theorem C3_scenarioA_kernel :
    kernel [-1, 1] 2 1 =
      Except.ok ⟨1, [0, 1], 1, [0, 1], [[0, 1], []], [[1, 1], []]⟩ := by
  decide

unseal Rat.add Rat.mul Rat.inv Rat.sub in
/-- C4 (code bug): on the stoichiometric matrix `[1, 1, 1, 1]` (two
reactions, two matched species, every coefficient 1), `fill` stores the
neighbour `1` in `J[0]` twice — once per entry of row 0 whose running prefix
weight exceeds `MIN` — with the prefix sums `1` and `2` as weights, instead
of once with the total weight `2`: the block that stores a pair is indented
inside the per-entry loop of the source (lines 261-268). -/
theorem C4_fill_duplicate_adjacency :
    fill [1, 1, 1, 1] 2 [0, 1] 2 =
      ([[1, 1], [0, 0]], [[1, 2], [1, 2]], [2, 2]) := by
  decide

unseal Rat.add Rat.mul Rat.inv Rat.sub in
/-- C6 (code bug): `LinearDependence` returns `1` (independent) for the
candidate `vectors = [1, 2, 1]` over `matched = [0, 1, 2]`, although the
candidate row (species `[0, 1, 2]`, coefficients `[1, 2, 1]`) is the sum of
the two stored moieties `([0, 1], [1, 1])` and `([1, 2], [1, 1])`: the
`return` of the source (line 366) sits inside the `while ok == 0:` loop, so
only one elimination pass runs; a second pass would cancel the candidate row
and report dependence. -/
theorem C6_LinearDependence_single_pass :
    LinearDependence [1, 2, 1] 2 [[0, 1], [1, 2], []] [[1, 1], [1, 1], []]
      [0, 1, 2] 3 = 1 := by
  decide

unseal Rat.add Rat.mul Rat.inv Rat.sub in
/-- C8 (code bug): `Relaxation` raises instead of returning a feasibility
flag: on the input `[1]` with `intmatched = []`, `M = N = 1`, the second
input scan reaches `matrix_aus2[k2].append(val)` (source line 708) with the
name `k2` unbound — a `NameError`. -/
theorem C8_Relaxation_raises :
    Relaxation [1] [] 1 1 1000000 (19 / 10) =
      Except.error "NameError: name k2 is not defined" := by
  decide

unseal Rat.add Rat.mul Rat.inv Rat.sub in
/-- C7 (counterexample): a call whose list length does not match `N * M`
(here `[1]` with `N = 2`, `M = 1`) is not rejected: `kernel` silently wraps
the metabolite counter and returns a normal result tuple. -/
theorem C7_counterexample_returns_normally :
    ([1] : List ℚ).length ≠ 2 * 1 ∧
    kernel [1] 2 1 = Except.ok ⟨1, [1], 1, [1], [[1], []], [[1], []]⟩ := by
  constructor
  · decide
  · decide

/-- C7 (amended): `kernel` performs no input validation at all — for every
input list of length at most `N * M` (matching or not), it returns a normal
result tuple; its two trailing `assert` statements always hold.  (Lists
longer than `N * M` are excluded only because the Python code can then
address columns beyond the `colonna` buffer, which the embedding does not
model.) -/
theorem C7_kernel_never_fails (vals : List ℚ) (N M : ℕ)
    (h : vals.length ≤ N * M) :
    exceptOk (kernel vals N M) = true := by
  obtain ⟨h1, h2, h3, _⟩ := kernelRaw_shape vals N M
  unfold kernel
  simp only
  rw [if_pos h3, if_pos (h1.trans h2.symm)]
  rfl

/-- C7 (witness): the amended theorem applied to the mismatched input
`[1]`, `N = 2`, `M = 1`. -/
theorem C7_kernel_never_fails_witness :
    exceptOk (kernel [1] 2 1) = true :=
  C7_kernel_never_fails [1] 2 1 (by decide)

/-- C10: for every input, the `NSolutions` and `NSolutions2` lists returned
by `kernel` both have length exactly `numberOfMetabolites` (not
`intKernelDim`), and every entry at an index `≥ intKernelDim` is the empty
list. -/
theorem C10_NSolutions_shape (vals : List ℚ) (N M : ℕ) (r : KernelResult)
    (h : kernel vals N M = Except.ok r) :
    r.NSolutions.length = N ∧ r.NSolutions2.length = N ∧
    ∀ i, r.intKernelDim ≤ i →
      r.NSolutions.getD i [] = [] ∧ r.NSolutions2.getD i [] = [] := by
  have hr : r = kernelRaw vals N M := by
    unfold kernel at h
    simp only at h
    split_ifs at h with h1 h2
    exact (Except.ok.inj h).symm
  subst hr
  obtain ⟨h1, h2, _, h4⟩ := kernelRaw_shape vals N M
  exact ⟨h1, h2, h4⟩

unseal Rat.add Rat.mul Rat.inv Rat.sub in
/-- C10 (witness): the theorem applied to Scenario A, whose `kernel` result
is computed by `decide`. -/
theorem C10_NSolutions_shape_witness :
    (⟨1, [0, 1], 1, [0, 1], [[0, 1], []], [[1, 1], []]⟩ :
      KernelResult).NSolutions.length = 2 ∧
    (⟨1, [0, 1], 1, [0, 1], [[0, 1], []], [[1, 1], []]⟩ :
      KernelResult).NSolutions2.length = 2 ∧
    ∀ i, (⟨1, [0, 1], 1, [0, 1], [[0, 1], []], [[1, 1], []]⟩ :
      KernelResult).intKernelDim ≤ i →
      (⟨1, [0, 1], 1, [0, 1], [[0, 1], []], [[1, 1], []]⟩ :
        KernelResult).NSolutions.getD i [] = [] ∧
      (⟨1, [0, 1], 1, [0, 1], [[0, 1], []], [[1, 1], []]⟩ :
        KernelResult).NSolutions2.getD i [] = [] :=
  C10_NSolutions_shape [-1, 1] 2 1 _ (by decide)

unseal Rat.add Rat.mul Rat.inv Rat.sub in
/-- C1 (counterexample): on the input `[1e10, 1]` (`N = 2`, `M = 1`) the
elimination truncates the bookkeeping coefficient `g = 1e-10 ≤ MIN` of
species 0, and `kernel` reports the single moiety `{species 1 : 1}` — whose
dot product with reaction 0 is `1`, far outside the tolerance `MIN`. -/
theorem C1_counterexample_zero_dot :
    kernel [10000000000, 1] 2 1 =
      Except.ok ⟨1, [1], 1, [1], [[1], []], [[1], []]⟩ ∧
    moietyDot [10000000000, 1] 2 [1] [1] 0 = 1 ∧
    MIN < |moietyDot [10000000000, 1] 2 [1] [1] 0| := by
  refine ⟨by decide, by decide, by decide⟩

unseal Rat.add Rat.mul Rat.inv Rat.sub in
/-- C2 (counterexample): on the input `[1, 1, 1, 1 + 1e-10]` (`N = M = 2`)
the elimination merges the two metabolite rows and truncates the resulting
entry `1e-10 ≤ MIN`, reporting the row as a null-space vector: `kernel`
returns `kernelDim = 1` although the matrix has full rank 2, so
`N - rank = 0 ≠ kernelDim`. -/
theorem C2_counterexample_rank_nullity :
    (kernelRaw [1, 1, 1, 1 + 1 / 10000000000] 2 2).kernelDim = 1 ∧
    (stoichMatrix [1, 1, 1, 1 + 1 / 10000000000] 2 2).rank = 2 ∧
    (kernelRaw [1, 1, 1, 1 + 1 / 10000000000] 2 2).kernelDim ≠
      2 - (stoichMatrix [1, 1, 1, 1 + 1 / 10000000000] 2 2).rank := by
  have hm : stoichMatrix [1, 1, 1, 1 + 1 / 10000000000] 2 2 =
      !![1, 1; 1, 1 + 1 / 10000000000] := by
    ext r j
    fin_cases r <;> fin_cases j <;> simp [stoichMatrix]
  have hdet : (!![1, 1; 1, 1 + 1 / 10000000000] :
      Matrix (Fin 2) (Fin 2) ℚ).det ≠ 0 := by
    rw [Matrix.det_fin_two_of]
    norm_num
  have hrank : (stoichMatrix [1, 1, 1, 1 + 1 / 10000000000] 2 2).rank = 2 := by
    rw [hm]
    have := Matrix.rank_of_isUnit
      (!![1, 1; 1, 1 + 1 / 10000000000] : Matrix (Fin 2) (Fin 2) ℚ)
      ((Matrix.isUnit_iff_isUnit_det _).mpr (isUnit_iff_ne_zero.mpr hdet))
    simpa using this
  have hk : (kernelRaw [1, 1, 1, 1 + 1 / 10000000000] 2 2).kernelDim = 1 := by
    decide
  refine ⟨hk, hrank, ?_⟩
  rw [hk, hrank]
  decide

/-- C5 (amended): in every Metropolis step, with cached exponential base
`e = exp(-1/T')` (where `T'` is the temperature at the last time the source
recomputed `e`, lines 423, 450, 454 — equal to the current temperature up to
the staleness of that cache), the move is applied iff `Δ < 0` or
`u < e^(-Δ/T')` — the *negated* exponent, not `e^(Δ/T)` as claimed. -/
theorem C5_metropolis_acceptance (fields : List ℚ) (J : List (List ℕ))
    (J2 : List (List ℚ)) (T : ℝ) (num : List ℤ) (H : ℚ) (en : ℕ) (p : ℤ)
    (u : ℝ) (out : List ℤ × ℚ) (hT : 0 < T) (hen : en < num.length)
    (hp : p ≠ 0)
    (hrel : MCMetropolis fields J J2 (Real.exp (-(1 / T))) num H en p u out) :
    out = (num.set en (num.getD en 0 + p), H + mcDelta fields J J2 num en p) ↔
      (mcDelta fields J J2 num en p < 0 ∨
        u < Real.exp (-((mcDelta fields J J2 num en p : ℝ) / T))) := by
  have hpow : (Real.exp (-(1 / T))) ^ ((mcDelta fields J J2 num en p : ℝ)) =
      Real.exp (-((mcDelta fields J J2 num en p : ℝ) / T)) := by
    rw [Real.rpow_def_of_pos (Real.exp_pos _), Real.log_exp]
    ring_nf
  have hacc : mcAccepts (Real.exp (-(1 / T))) (mcDelta fields J J2 num en p) u ↔
      (mcDelta fields J J2 num en p < 0 ∨
        u < Real.exp (-((mcDelta fields J J2 num en p : ℝ) / T))) := by
    unfold mcAccepts
    rw [hpow]
  rcases hrel with ⟨ha, hout⟩ | ⟨ha, hout⟩
  · exact iff_of_true hout (hacc.mp ha)
  · refine iff_of_false ?_ fun hcond => ha (hacc.mpr hcond)
    intro heq
    rw [hout] at heq
    have hnum : num = num.set en (num.getD en 0 + p) := congrArg Prod.fst heq
    have h2 : (num.set en (num.getD en 0 + p))[en]? = some (num.getD en 0 + p) :=
      List.getElem?_set_self hen
    rw [← hnum] at h2
    have h1 : num[en]? = some num[en] := List.getElem?_eq_getElem hen
    rw [h1] at h2
    have h3 : num.getD en 0 = num[en] := by
      simp [List.getD_eq_getElem?_getD, h1]
    rw [h3] at h2
    have := Option.some.inj h2
    omega

unseal Rat.add Rat.mul Rat.inv Rat.sub in
/-- C5 (witness): the amended theorem at `fields = [-1]`, `num = [1]`,
`T = 1`, `p = 1`, `u = 1/2`, where `Δ = -3 < 0` and the move is applied. -/
theorem C5_metropolis_acceptance_witness :
    ((([1] : List ℤ).set 0 (([1] : List ℤ).getD 0 0 + 1),
        (0 : ℚ) + mcDelta [-1] [[]] [[]] [1] 0 1) =
      (([1] : List ℤ).set 0 (([1] : List ℤ).getD 0 0 + 1),
        (0 : ℚ) + mcDelta [-1] [[]] [[]] [1] 0 1)) ↔
    (mcDelta [-1] [[]] [[]] [1] 0 1 < 0 ∨
      (1 / 2 : ℝ) < Real.exp (-((mcDelta [-1] [[]] [[]] [1] 0 1 : ℝ) / 1))) :=
  C5_metropolis_acceptance [-1] [[]] [[]] 1 [1] 0 0 1 (1 / 2)
    (([1] : List ℤ).set 0 (([1] : List ℤ).getD 0 0 + 1),
      (0 : ℚ) + mcDelta [-1] [[]] [[]] [1] 0 1)
    one_pos (by decide) (by decide) (Or.inl ⟨Or.inl (by decide), rfl⟩)

unseal Rat.add Rat.mul Rat.inv Rat.sub in
/-- C5 (counterexample): with `fields = [1]`, `num = [1]`, `en = 0`,
`p = 1` the energy difference is `Δ = 3`; at temperature `T = 1` with draw
`u = 9/10` the code rejects the move (`u ≥ e^{-Δ} ≈ 0.05`), while the
claimed condition `Δ < 0 ∨ u < e^{Δ/T}` holds (`e^3 > 0.9`) and would
demand that the move be applied. -/
theorem C5_counterexample_acceptance_sign :
    MCMetropolis [1] [[]] [[]] (Real.exp (-(1 / 1))) [1] 0 0 1 (9 / 10)
      ([1], 0) ∧
    claimAccepts 1 (mcDelta [1] [[]] [[]] [1] 0 1) (9 / 10) ∧
    (([1] : List ℤ), (0 : ℚ)) ≠
      (([1] : List ℤ).set 0 (([1] : List ℤ).getD 0 0 + 1),
        (0 : ℚ) + mcDelta [1] [[]] [[]] [1] 0 1) := by
  have hd : mcDelta [1] [[]] [[]] [1] 0 1 = 3 := by decide
  have hexp3 : (4 : ℝ) ≤ Real.exp 3 := by
    have := Real.add_one_le_exp (3 : ℝ)
    linarith
  refine ⟨Or.inr ⟨?_, rfl⟩, ?_, ?_⟩
  · show ¬ mcAccepts (Real.exp (-(1 / 1))) (mcDelta [1] [[]] [[]] [1] 0 1)
      (9 / 10)
    rw [hd]
    rintro (h1 | h2)
    · norm_num at h1
    · have hpow : (Real.exp (-(1 / 1))) ^ (((3 : ℚ) : ℝ)) =
          Real.exp (-3) := by
        rw [Real.rpow_def_of_pos (Real.exp_pos _), Real.log_exp]
        norm_num
      rw [hpow] at h2
      have h4 : Real.exp (-3) ≤ 1 / 4 := by
        rw [Real.exp_neg, inv_eq_one_div]
        apply div_le_div_of_nonneg_left _ _ hexp3 <;> norm_num
      linarith
  · right
    rw [hd]
    have h31 : ((3 : ℚ) : ℝ) / 1 = 3 := by norm_num
    rw [h31]
    linarith
  · rw [hd]
    decide

/-- One partition pass of `qsort`, restated over a decomposition
`orders = A ++ W ++ B` of the index array into the prefix before the window,
the window itself and the suffix after it. -/
theorem qsortPart_decomp (pivots : List ℚ) (A W B : List ℕ) (hW : W ≠ []) :
    qsortPart pivots (A.length + W.length) A.length (A ++ W ++ B) =
      (A ++ ((W.eraseIdx (W.length / 2)).filter
          (fun o => decide (key pivots o < key pivots (W.getD (W.length / 2) 0))) ++
        W.getD (W.length / 2) 0 ::
          ((W.eraseIdx (W.length / 2)).filter
            (fun o => !decide (key pivots o < key pivots (W.getD (W.length / 2) 0)))).reverse) ++ B,
        A.length + ((W.eraseIdx (W.length / 2)).filter
          (fun o => decide (key pivots o < key pivots (W.getD (W.length / 2) 0)))).length) := by
  have hj : W.length / 2 < W.length :=
    Nat.div_lt_self (List.length_pos.mpr hW) (by omega)
  have hks : A.length + W.length - A.length = W.length := by omega
  have htk : (A ++ W ++ B).take (A.length + W.length) = A ++ W :=
    List.take_left' (by simp)
  have htkm : (A ++ W ++ B).take A.length = A := by
    rw [List.append_assoc]
    exact List.take_left' rfl
  have hdk : (A ++ W ++ B).drop (A.length + W.length) = B :=
    List.drop_left' (by simp)
  have hwin : (A ++ W).drop A.length = W := List.drop_left' rfl
  have hpv : (A ++ W ++ B).getD (A.length + W.length / 2) 0 =
      W.getD (W.length / 2) 0 := by
    rw [List.append_assoc]
    simp only [List.getD_eq_getElem?_getD]
    rw [List.getElem?_append_right (by omega)]
    have h2 : A.length + W.length / 2 - A.length = W.length / 2 := by omega
    rw [h2, List.getElem?_append, if_pos hj]
  simp only [qsortPart, hks, htk, htkm, hdk, hwin, hpv]

/-- Correctness of the fuelled quicksort on a window decomposition: given
enough fuel, the window is replaced by a permutation of itself that is
sorted by ascending key, and nothing outside the window changes. -/
theorem qsortF_spec (pivots : List ℚ) :
    ∀ (fuel : ℕ) (W A B : List ℕ), W.length ≤ fuel →
    ∃ W', qsortF pivots fuel (A.length + W.length) A.length (A ++ W ++ B) =
        A ++ W' ++ B ∧ W'.Perm W ∧ W'.Pairwise (keyLE pivots) := by
  intro fuel
  induction fuel with
  | zero =>
    intro W A B hlen
    have : W = [] := List.length_eq_zero.mp (by omega)
    subst this
    exact ⟨[], rfl, List.Perm.refl _, List.Pairwise.nil⟩
  | succ fuel ih =>
    intro W A B hlen
    rcases eq_or_ne W [] with hW | hW
    · subst hW
      refine ⟨[], ?_, List.Perm.refl _, List.Pairwise.nil⟩
      simp [qsortF]
    · have hWpos : 0 < W.length := List.length_pos.mpr hW
      have hj : W.length / 2 < W.length := Nat.div_lt_self hWpos (by omega)
      have hcond : 1 ≤ A.length + W.length - A.length := by omega
      have hunfold : qsortF pivots (fuel + 1) (A.length + W.length) A.length
          (A ++ W ++ B) =
          qsortF pivots fuel
            (qsortPart pivots (A.length + W.length) A.length (A ++ W ++ B)).2
            A.length
            (qsortF pivots fuel (A.length + W.length)
              ((qsortPart pivots (A.length + W.length) A.length (A ++ W ++ B)).2 + 1)
              (qsortPart pivots (A.length + W.length) A.length (A ++ W ++ B)).1) := by
        rw [qsortF, if_pos hcond]
      rw [hunfold, qsortPart_decomp pivots A W B hW]
      dsimp only
      set j := W.length / 2 with hjdef
      set pv := key pivots (W.getD j 0) with hpvdef
      set less := (W.eraseIdx j).filter
        (fun o => decide (key pivots o < pv)) with hlessdef
      set geq := (W.eraseIdx j).filter
        (fun o => !decide (key pivots o < pv)) with hgeqdef
      have hrestlen : (W.eraseIdx j).length = W.length - 1 :=
        List.length_eraseIdx_of_lt hj
      have hlg : less.length + geq.length = W.length - 1 := by
        have hp := (List.filter_append_perm
          (fun o => decide (key pivots o < pv)) (W.eraseIdx j)).length_eq
        rw [List.length_append] at hp
        rw [hlessdef, hgeqdef, ← hrestlen]
        exact hp
      -- inner call on the right-hand window
      have e3 : A ++ (less ++ W.getD j 0 :: geq.reverse) ++ B =
          (A ++ less ++ [W.getD j 0]) ++ geq.reverse ++ B := by
        simp [List.append_assoc]
      have e1 : A.length + less.length + 1 =
          (A ++ less ++ [W.getD j 0]).length := by
        simp
        omega
      have e2 : A.length + W.length =
          (A ++ less ++ [W.getD j 0]).length + geq.reverse.length := by
        simp
        omega
      rw [e3, e2, show A.length + less.length + 1 =
        (A ++ less ++ [W.getD j 0]).length from e1]
      obtain ⟨G', hG'eq, hG'perm, hG'pw⟩ := ih geq.reverse
        (A ++ less ++ [W.getD j 0]) B (by simp; omega)
      rw [hG'eq]
      -- outer call on the left-hand window
      have e4 : (A ++ less ++ [W.getD j 0]) ++ G' ++ B =
          A ++ less ++ (W.getD j 0 :: (G' ++ B)) := by
        simp [List.append_assoc]
      have e6 : (A ++ less ++ [W.getD j 0]).length = A.length + less.length + 1 := by
        simp
        omega
      rw [e4]
      obtain ⟨L', hL'eq, hL'perm, hL'pw⟩ := ih less A
        (W.getD j 0 :: (G' ++ B)) (by omega)
      rw [hL'eq]
      refine ⟨L' ++ W.getD j 0 :: G', by simp [List.append_assoc], ?_, ?_⟩
      · have p1 : (L' ++ W.getD j 0 :: G').Perm
            (less ++ W.getD j 0 :: geq.reverse) :=
          List.Perm.append hL'perm (List.Perm.cons _ hG'perm)
        have p2 : (less ++ W.getD j 0 :: geq.reverse).Perm
            (W.getD j 0 :: (less ++ geq.reverse)) := List.perm_middle
        have p3 : (less ++ geq.reverse).Perm (W.eraseIdx j) := by
          have h5 := List.Perm.append (List.Perm.refl less) (List.reverse_perm geq)
          exact h5.trans (List.filter_append_perm _ _)
        have p4 : (W.getD j 0 :: W.eraseIdx j).Perm W := by
          rw [List.eraseIdx_eq_take_drop_succ]
          have hWd : W.getD j 0 = W[j] := by
            simp [List.getD_eq_getElem?_getD, List.getElem?_eq_getElem hj]
          rw [hWd]
          have h12 : (W[j] :: (W.take j ++ W.drop (j + 1))).Perm
              (W.take j ++ W[j] :: W.drop (j + 1)) := List.perm_middle.symm
          have h13 : W.take j ++ W[j] :: W.drop (j + 1) = W := by
            rw [← List.drop_eq_getElem_cons hj, List.take_append_drop]
          rw [h13] at h12
          exact h12
        exact p1.trans (p2.trans ((List.Perm.cons _ p3).trans p4))
      · rw [List.pairwise_append]
        refine ⟨hL'pw, ?_, ?_⟩
        · rw [List.pairwise_cons]
          refine ⟨?_, hG'pw⟩
          intro b hb
          have hbg : b ∈ geq := by
            have h6 := hG'perm.mem_iff.mp hb
            simpa using h6
          have h7 : ¬ key pivots b < pv := by
            have h8 := (List.mem_filter.mp hbg).2
            simpa using h8
          exact not_lt.mp h7
        · intro a ha b hb
          have hal : a ∈ less := hL'perm.mem_iff.mp ha
          have hka : key pivots a < pv := by
            have h9 := (List.mem_filter.mp hal).2
            simpa using h9
          rcases List.mem_cons.mp hb with rfl | hbG
          · exact le_of_lt hka
          · have hbg : b ∈ geq := by
              have h10 := hG'perm.mem_iff.mp hbG
              simpa using h10
            have hkb : ¬ key pivots b < pv := by
              have h11 := (List.mem_filter.mp hbg).2
              simpa using h11
            exact le_trans (le_of_lt hka) (not_lt.mp hkb)

/-- C9 (amended): `qsort(k, km, orders, pivots)` leaves the entries outside
the window `[km, k)` unchanged and replaces the window by a permutation of
itself on which the keys `pivots[orders[i]]` are ascending — but the sort is
*not* stable (see the counterexample). -/
theorem C9_qsort_sorts (pivots : List ℚ) (k km : ℕ) (orders : List ℕ)
    (h1 : km ≤ k) (h2 : k ≤ orders.length) :
    (qsort pivots k km orders).take km = orders.take km ∧
    (qsort pivots k km orders).drop k = orders.drop k ∧
    (((qsort pivots k km orders).take k).drop km).Perm
      ((orders.take k).drop km) ∧
    (((qsort pivots k km orders).take k).drop km).Pairwise (keyLE pivots) := by
  set A := orders.take km with hAdef
  set W := (orders.take k).drop km with hWdef
  set B := orders.drop k with hBdef
  have hAlen : A.length = km := by
    rw [hAdef, List.length_take]
    omega
  have hWlen : W.length = k - km := by
    rw [hWdef, List.length_drop, List.length_take]
    omega
  have hAW : A ++ W = orders.take k := by
    rw [hAdef, hWdef, show orders.take km = (orders.take k).take km by
      rw [List.take_take, Nat.min_eq_left h1]]
    exact List.take_append_drop _ _
  have horders : A ++ W ++ B = orders := by
    rw [hAW, hBdef]
    exact List.take_append_drop _ _
  obtain ⟨W', heq, hperm, hpw⟩ := qsortF_spec pivots (k - km) W A B (by omega)
  have hq : qsort pivots k km orders = A ++ W' ++ B := by
    have hk : km + W.length = k := by omega
    rw [← heq]
    unfold qsort
    rw [horders, hAlen, hk]
  have hW'len : W'.length = W.length := hperm.length_eq
  have htakekm : (A ++ W' ++ B).take km = A := by
    rw [List.append_assoc]
    exact List.take_left' hAlen
  have hdropk : (A ++ W' ++ B).drop k = B :=
    List.drop_left' (by rw [List.length_append, hAlen, hW'len]; omega)
  have htakek : (A ++ W' ++ B).take k = A ++ W' :=
    List.take_left' (by rw [List.length_append, hAlen, hW'len]; omega)
  have hwin : ((A ++ W' ++ B).take k).drop km = W' := by
    rw [htakek]
    exact List.drop_left' hAlen
  rw [hq, htakekm, hdropk, hwin]
  exact ⟨rfl, rfl, hperm, hpw⟩


unseal Rat.add Rat.mul Rat.inv Rat.sub in
/-- C9 (witness): the amended theorem at `pivots = [3, 1, 2]`,
`orders = [0, 1, 2]`, whole-array window. -/
theorem C9_qsort_sorts_witness :
    (qsort [3, 1, 2] 3 0 [0, 1, 2]).take 0 = ([0, 1, 2] : List ℕ).take 0 ∧
    (qsort [3, 1, 2] 3 0 [0, 1, 2]).drop 3 = ([0, 1, 2] : List ℕ).drop 3 ∧
    (((qsort [3, 1, 2] 3 0 [0, 1, 2]).take 3).drop 0).Perm
      ((([0, 1, 2] : List ℕ).take 3).drop 0) ∧
    (((qsort [3, 1, 2] 3 0 [0, 1, 2]).take 3).drop 0).Pairwise
      (keyLE [3, 1, 2]) :=
  C9_qsort_sorts [3, 1, 2] 3 0 [0, 1, 2] (by decide) (by decide)

/-- C9 (counterexample): on two equal keys the partition of `qsort` moves
the later element in front of the earlier one (the ≥-side of the partition
is filled back to front), so the output is not the stable sort of the
claim. -/
theorem C9_counterexample_not_stable :
    qsort [5, 5] 2 0 [0, 1] = [1, 0] ∧
    stableSortSpec [5, 5] 2 0 [0, 1] = [0, 1] ∧
    qsort [5, 5] 2 0 [0, 1] ≠ stableSortSpec [5, 5] 2 0 [0, 1] := by
  decide

end ConservedMoieties
namespace ConservedMoieties

theorem elimLoop_of_ok (N M : ℕ) (fuel : ℕ) (st : ElimState)
    (h : (elimIter N M st).2 = true) :
    elimLoop N M (fuel + 1) st = (elimIter N M st).1 := by
  rw [elimLoop, h]
  simp

theorem elimLoop_of_not_ok (N M : ℕ) (fuel : ℕ) (st : ElimState)
    (h : (elimIter N M st).2 = false) :
    elimLoop N M (fuel + 1) st = elimLoop N M fuel (elimIter N M st).1 := by
  rw [elimLoop, h]
  simp

theorem stoich21_rank_one (a b : ℚ) (h : ¬(a = 0 ∧ b = 0)) :
    (stoichMatrix [a, b] 2 1).rank = 1 := by
  have hle : (stoichMatrix [a, b] 2 1).rank ≤ 1 := by
    have h1 := Matrix.rank_le_card_height (stoichMatrix [a, b] 2 1)
    simpa using h1
  have hpos : 0 < (stoichMatrix [a, b] 2 1).rank := by
    rw [Matrix.rank, Module.finrank_pos_iff_exists_ne_zero]
    rcases not_and_or.mp h with ha | hb
    · refine ⟨⟨(stoichMatrix [a, b] 2 1).mulVecLin (Pi.single 0 1),
        LinearMap.mem_range_self _ _⟩, ?_⟩
      intro hz
      rw [Submodule.mk_eq_zero] at hz
      have h2 := congrFun hz 0
      rw [Matrix.mulVecLin_apply, Matrix.mulVec_single_one] at h2
      have h3 : stoichMatrix [a, b] 2 1 0 0 = a := rfl
      exact ha (by simpa [Matrix.transpose_apply, h3] using h2)
    · refine ⟨⟨(stoichMatrix [a, b] 2 1).mulVecLin (Pi.single 1 1),
        LinearMap.mem_range_self _ _⟩, ?_⟩
      intro hz
      rw [Submodule.mk_eq_zero] at hz
      have h2 := congrFun hz 0
      rw [Matrix.mulVecLin_apply, Matrix.mulVec_single_one] at h2
      have h3 : stoichMatrix [a, b] 2 1 0 1 = b := rfl
      exact hb (by simpa [Matrix.transpose_apply, h3] using h2)
  omega

end ConservedMoieties
namespace ConservedMoieties

unseal Rat.add Rat.mul Rat.inv Rat.sub in
theorem kernel00_dim : (kernelRaw [0, 0] 2 1).kernelDim = 2 := by decide

set_option maxHeartbeats 1000000 in
theorem kernel0b_dim (b : ℚ) (hb : b ≠ 0) :
    (kernelRaw [0, b] 2 1).kernelDim = 1 := by
  have hbuild : buildMatrix [0, b] 2 = ⟨[[], [0]], [[], [b]], 1, 0⟩ := by
    simp [buildMatrix, buildStep, appendEntry, hb, List.replicate]
  have hinit : kernelElim [0, b] 2 1 =
      elimLoop 2 1 7 ⟨[[1], [0, 2]], [[1], [b, 1]], [0, 1], [(1 : ℚ), 0]⟩ := by
    simp [kernelElim, hbuild, List.range_succ, MAX]
  have hq : qsort [(1 : ℚ), 0] 2 0 [0, 1] = [1, 0] := by decide
  have hit : elimIter 2 1 ⟨[[1], [0, 2]], [[1], [b, 1]], [0, 1], [(1 : ℚ), 0]⟩ =
      (⟨[[1], [0, 2]], [[1], [b, 1]], [1, 0], [(1 : ℚ), 0]⟩, true) := by
    norm_num [elimIter, hq, swapPass, swapStep, mergePass, mergeStep, key,
      MAX, List.range_succ]
  simp only [kernelRaw]
  rw [kernelRows, hinit, show (7 : ℕ) = 6 + 1 from rfl,
    elimLoop_of_ok _ _ _ _ (by rw [hit]), hit]
  norm_num [extractRows, List.range_succ]

set_option maxHeartbeats 1000000 in
theorem kernela0_dim (a : ℚ) (ha : a ≠ 0) :
    (kernelRaw [a, 0] 2 1).kernelDim = 1 := by
  have hbuild : buildMatrix [a, 0] 2 = ⟨[[0], []], [[a], []], 1, 0⟩ := by
    simp [buildMatrix, buildStep, appendEntry, ha, List.replicate]
  have hinit : kernelElim [a, 0] 2 1 =
      elimLoop 2 1 7 ⟨[[0, 1], [2]], [[a, 1], [1]], [0, 1], [(0 : ℚ), 2]⟩ := by
    simp [kernelElim, hbuild, List.range_succ, MAX]
  have hq : qsort [(0 : ℚ), 2] 2 0 [0, 1] = [0, 1] := by decide
  have hit : elimIter 2 1 ⟨[[0, 1], [2]], [[a, 1], [1]], [0, 1], [(0 : ℚ), 2]⟩ =
      (⟨[[0, 1], [2]], [[a, 1], [1]], [0, 1], [(0 : ℚ), 2]⟩, true) := by
    norm_num [elimIter, hq, swapPass, swapStep, mergePass, mergeStep, key,
      MAX, List.range_succ]
  simp only [kernelRaw]
  rw [kernelRows, hinit, show (7 : ℕ) = 6 + 1 from rfl,
    elimLoop_of_ok _ _ _ _ (by rw [hit]), hit]
  norm_num [extractRows, List.range_succ]


set_option maxHeartbeats 1000000 in
theorem kernelab_dim (a b : ℚ) (ha : a ≠ 0) (hb : b ≠ 0) :
    (kernelRaw [a, b] 2 1).kernelDim = 1 := by
  have hq1 : qsort [(0 : ℚ), 0] 2 0 [0, 1] = [1, 0] := by decide
  by_cases hsw : minRatio 100000000 [b, 1] < minRatio 100000000 [a, 1]
  · by_cases hg : (1 : ℚ) / 1000000000 < |a / b|
    · have hit : elimIter 2 1
          ⟨[[0, 1], [0, 2]], [[a, 1], [b, 1]], [0, 1], [(0 : ℚ), 0]⟩ =
          (⟨[[0, 1], [1, 2]], [[a, 1], [-1, a / b]], [0, 1], [(0 : ℚ), 1]⟩,
            false) := by
        norm_num [elimIter, hq1, swapPass, swapStep, mergePass, mergeStep,
          key, MIN, MAX, List.range_succ, List.replicate_succ, hsw, hg]
        rw [show ([0, 0, a / b] : List ℚ)[1] = 0 from rfl]
        norm_num [hg]
      have hq2 : qsort [(0 : ℚ), 1] 2 0 [0, 1] = [0, 1] := by decide
      have hit2 : elimIter 2 1
          ⟨[[0, 1], [1, 2]], [[a, 1], [-1, a / b]], [0, 1], [(0 : ℚ), 1]⟩ =
          (⟨[[0, 1], [1, 2]], [[a, 1], [-1, a / b]], [0, 1], [(0 : ℚ), 1]⟩,
            true) := by
        norm_num [elimIter, hq2, swapPass, swapStep, mergePass, mergeStep,
          key, MAX, List.range_succ]
      have hbuild : buildMatrix [a, b] 2 = ⟨[[0], [0]], [[a], [b]], 1, 0⟩ := by
        simp [buildMatrix, buildStep, appendEntry, ha, hb, List.replicate]
      have hinit : kernelElim [a, b] 2 1 = elimLoop 2 1 7
          ⟨[[0, 1], [0, 2]], [[a, 1], [b, 1]], [0, 1], [(0 : ℚ), 0]⟩ := by
        simp [kernelElim, hbuild, List.range_succ, MAX]
      simp only [kernelRaw]
      rw [kernelRows, hinit, show (7 : ℕ) = 6 + 1 from rfl,
        elimLoop_of_not_ok _ _ _ _ (by rw [hit]), hit,
        show (6 : ℕ) = 5 + 1 from rfl,
        elimLoop_of_ok _ _ _ _ (by rw [hit2]), hit2]
      norm_num [extractRows, List.range_succ]
      simp
    · have hit : elimIter 2 1
          ⟨[[0, 1], [0, 2]], [[a, 1], [b, 1]], [0, 1], [(0 : ℚ), 0]⟩ =
          (⟨[[0, 1], [1]], [[a, 1], [-1]], [0, 1], [(0 : ℚ), 1]⟩, false) := by
        norm_num [elimIter, hq1, swapPass, swapStep, mergePass, mergeStep,
          key, MIN, MAX, List.range_succ, List.replicate_succ, hsw, hg]
        rw [show ([0, 0, a / b] : List ℚ)[1] = 0 from rfl]
        norm_num [hg]
      have hq2 : qsort [(0 : ℚ), 1] 2 0 [0, 1] = [0, 1] := by decide
      have hit2 : elimIter 2 1
          ⟨[[0, 1], [1]], [[a, 1], [-1]], [0, 1], [(0 : ℚ), 1]⟩ =
          (⟨[[0, 1], [1]], [[a, 1], [-1]], [0, 1], [(0 : ℚ), 1]⟩, true) := by
        norm_num [elimIter, hq2, swapPass, swapStep, mergePass, mergeStep,
          key, MAX, List.range_succ]
      have hbuild : buildMatrix [a, b] 2 = ⟨[[0], [0]], [[a], [b]], 1, 0⟩ := by
        simp [buildMatrix, buildStep, appendEntry, ha, hb, List.replicate]
      have hinit : kernelElim [a, b] 2 1 = elimLoop 2 1 7
          ⟨[[0, 1], [0, 2]], [[a, 1], [b, 1]], [0, 1], [(0 : ℚ), 0]⟩ := by
        simp [kernelElim, hbuild, List.range_succ, MAX]
      simp only [kernelRaw]
      rw [kernelRows, hinit, show (7 : ℕ) = 6 + 1 from rfl,
        elimLoop_of_not_ok _ _ _ _ (by rw [hit]), hit,
        show (6 : ℕ) = 5 + 1 from rfl,
        elimLoop_of_ok _ _ _ _ (by rw [hit2]), hit2]
      norm_num [extractRows, List.range_succ]
  · by_cases hg : (1 : ℚ) / 1000000000 < |b / a|
    · have hit : elimIter 2 1
          ⟨[[0, 1], [0, 2]], [[a, 1], [b, 1]], [0, 1], [(0 : ℚ), 0]⟩ =
          (⟨[[1, 2], [0, 2]], [[b / a, -1], [b, 1]], [1, 0], [(1 : ℚ), 0]⟩,
            false) := by
        norm_num [elimIter, hq1, swapPass, swapStep, mergePass, mergeStep,
          key, MIN, MAX, List.range_succ, List.replicate_succ, hsw, hg]
        simp
      have hq2 : qsort [(1 : ℚ), 0] 2 0 [1, 0] = [1, 0] := by decide
      have hit2 : elimIter 2 1
          ⟨[[1, 2], [0, 2]], [[b / a, -1], [b, 1]], [1, 0], [(1 : ℚ), 0]⟩ =
          (⟨[[1, 2], [0, 2]], [[b / a, -1], [b, 1]], [1, 0], [(1 : ℚ), 0]⟩,
            true) := by
        norm_num [elimIter, hq2, swapPass, swapStep, mergePass, mergeStep,
          key, MAX, List.range_succ]
      have hbuild : buildMatrix [a, b] 2 = ⟨[[0], [0]], [[a], [b]], 1, 0⟩ := by
        simp [buildMatrix, buildStep, appendEntry, ha, hb, List.replicate]
      have hinit : kernelElim [a, b] 2 1 = elimLoop 2 1 7
          ⟨[[0, 1], [0, 2]], [[a, 1], [b, 1]], [0, 1], [(0 : ℚ), 0]⟩ := by
        simp [kernelElim, hbuild, List.range_succ, MAX]
      simp only [kernelRaw]
      rw [kernelRows, hinit, show (7 : ℕ) = 6 + 1 from rfl,
        elimLoop_of_not_ok _ _ _ _ (by rw [hit]), hit,
        show (6 : ℕ) = 5 + 1 from rfl,
        elimLoop_of_ok _ _ _ _ (by rw [hit2]), hit2]
      norm_num [extractRows, List.range_succ]
      simp
    · have hit : elimIter 2 1
          ⟨[[0, 1], [0, 2]], [[a, 1], [b, 1]], [0, 1], [(0 : ℚ), 0]⟩ =
          (⟨[[2], [0, 2]], [[-1], [b, 1]], [1, 0], [(2 : ℚ), 0]⟩, false) := by
        norm_num [elimIter, hq1, swapPass, swapStep, mergePass, mergeStep,
          key, MIN, MAX, List.range_succ, List.replicate_succ, hsw, hg]
      have hq2 : qsort [(2 : ℚ), 0] 2 0 [1, 0] = [1, 0] := by decide
      have hit2 : elimIter 2 1
          ⟨[[2], [0, 2]], [[-1], [b, 1]], [1, 0], [(2 : ℚ), 0]⟩ =
          (⟨[[2], [0, 2]], [[-1], [b, 1]], [1, 0], [(2 : ℚ), 0]⟩, true) := by
        norm_num [elimIter, hq2, swapPass, swapStep, mergePass, mergeStep,
          key, MAX, List.range_succ]
      have hbuild : buildMatrix [a, b] 2 = ⟨[[0], [0]], [[a], [b]], 1, 0⟩ := by
        simp [buildMatrix, buildStep, appendEntry, ha, hb, List.replicate]
      have hinit : kernelElim [a, b] 2 1 = elimLoop 2 1 7
          ⟨[[0, 1], [0, 2]], [[a, 1], [b, 1]], [0, 1], [(0 : ℚ), 0]⟩ := by
        simp [kernelElim, hbuild, List.range_succ, MAX]
      simp only [kernelRaw]
      rw [kernelRows, hinit, show (7 : ℕ) = 6 + 1 from rfl,
        elimLoop_of_not_ok _ _ _ _ (by rw [hit]), hit,
        show (6 : ℕ) = 5 + 1 from rfl,
        elimLoop_of_ok _ _ _ _ (by rw [hit2]), hit2]
      norm_num [extractRows, List.range_succ]


theorem kernel21_dim (a b : ℚ) :
    (kernelRaw [a, b] 2 1).kernelDim = if a = 0 ∧ b = 0 then 2 else 1 := by
  by_cases ha : a = 0 <;> by_cases hb : b = 0
  · subst ha hb
    norm_num
    exact kernel00_dim
  · subst ha
    rw [if_neg (by tauto)]
    exact kernel0b_dim b hb
  · subst hb
    rw [if_neg (by tauto)]
    exact kernela0_dim a ha
  · rw [if_neg (by tauto)]
    exact kernelab_dim a b ha hb

/-- C2 (amended): for every 2-species, 1-reaction input `[a, b]` the
numerical kernel dimension computed by `kernel` equals the rank-nullity
value `2 - rank(S)` for the exact stoichiometric matrix `S = [a b]`;
the general rank-nullity statement of the claim fails for wider systems
(see the counterexample). -/
theorem C2_rank_nullity_2x1 (a b : ℚ) :
    (kernelRaw [a, b] 2 1).kernelDim = 2 - (stoichMatrix [a, b] 2 1).rank := by
  by_cases h : a = 0 ∧ b = 0
  · obtain ⟨ha, hb⟩ := h
    subst ha hb
    have hz : stoichMatrix [0, 0] 2 1 = 0 := by
      ext r j
      fin_cases r <;> fin_cases j <;> simp [stoichMatrix]
    rw [hz, Matrix.rank_zero, kernel21_dim]
    norm_num
  · rw [stoich21_rank_one a b h, kernel21_dim, if_neg h]

set_option maxHeartbeats 1000000 in
theorem kernelRows_leaf3 (a b : ℚ) (ha : a ≠ 0) (hb : b ≠ 0)
    (hsw : ¬ minRatio 100000000 [b, 1] < minRatio 100000000 [a, 1])
    (hg : (1 : ℚ) / 1000000000 < |b / a|) :
    kernelRows [a, b] 2 1 = [([0, 1], [b / a, -1])] := by
  have hq1 : qsort [(0 : ℚ), 0] 2 0 [0, 1] = [1, 0] := by decide
  have hit : elimIter 2 1
      ⟨[[0, 1], [0, 2]], [[a, 1], [b, 1]], [0, 1], [(0 : ℚ), 0]⟩ =
      (⟨[[1, 2], [0, 2]], [[b / a, -1], [b, 1]], [1, 0], [(1 : ℚ), 0]⟩,
        false) := by
    norm_num [elimIter, hq1, swapPass, swapStep, mergePass, mergeStep,
      key, MIN, MAX, List.range_succ, List.replicate_succ, hsw, hg]
    simp
  have hq2 : qsort [(1 : ℚ), 0] 2 0 [1, 0] = [1, 0] := by decide
  have hit2 : elimIter 2 1
      ⟨[[1, 2], [0, 2]], [[b / a, -1], [b, 1]], [1, 0], [(1 : ℚ), 0]⟩ =
      (⟨[[1, 2], [0, 2]], [[b / a, -1], [b, 1]], [1, 0], [(1 : ℚ), 0]⟩,
        true) := by
    norm_num [elimIter, hq2, swapPass, swapStep, mergePass, mergeStep,
      key, MAX, List.range_succ]
  have hbuild : buildMatrix [a, b] 2 = ⟨[[0], [0]], [[a], [b]], 1, 0⟩ := by
    simp [buildMatrix, buildStep, appendEntry, ha, hb, List.replicate]
  have hinit : kernelElim [a, b] 2 1 = elimLoop 2 1 7
      ⟨[[0, 1], [0, 2]], [[a, 1], [b, 1]], [0, 1], [(0 : ℚ), 0]⟩ := by
    simp [kernelElim, hbuild, List.range_succ, MAX]
  rw [kernelRows, hinit, show (7 : ℕ) = 6 + 1 from rfl,
    elimLoop_of_not_ok _ _ _ _ (by rw [hit]), hit,
    show (6 : ℕ) = 5 + 1 from rfl,
    elimLoop_of_ok _ _ _ _ (by rw [hit2]), hit2]
  norm_num [extractRows, List.range_succ]
  simp


set_option maxHeartbeats 1000000 in
/-- C1 (amended): the zero-dot invariant holds when no truncation occurs:
for the family of inputs `[-t, 1]` (`N = 2`, `M = 1`) with `MIN < t < 1`,
every intermediate coefficient stays strictly between `MIN` and `MAX` in
magnitude, and every moiety returned by `kernel` has exactly zero dot
product with every reaction column; the unrestricted claim fails when a
coefficient is truncated (see the counterexample). -/
theorem C1_zero_dot_no_truncation (t : ℚ) (h1 : MIN < t) (h2 : t < 1) :
    ∀ i < (kernelRaw [-t, 1] 2 1).intKernelDim, ∀ r < 1,
      moietyDot [-t, 1] 2 ((kernelRaw [-t, 1] 2 1).NSolutions.getD i [])
        ((kernelRaw [-t, 1] 2 1).NSolutions2.getD i []) r = 0 := by
  have hMIN : (1 : ℚ) / 1000000000 < t := by simpa [MIN] using h1
  have ht0 : (0 : ℚ) < t := lt_trans (by norm_num) hMIN
  have htne : t ≠ 0 := ne_of_gt ht0
  have hdd : (-t) / (-t) = (1 : ℚ) := by field_simp
  have hgetelem : ([-t, 1] : List ℚ)[1] = 1 := rfl
  have habs : |(-t : ℚ)| = t := by rw [abs_neg, abs_of_pos ht0]
  have hsw : ¬ minRatio 100000000 [(1 : ℚ), 1] < minRatio 100000000 [-t, 1] := by
    norm_num [minRatio, hdd, habs, h2, not_lt]
    linarith
  have hg : (1 : ℚ) / 1000000000 < |1 / -t| := by
    rw [abs_div, abs_one, habs, div_lt_div_iff (by norm_num) ht0]
    linarith
  have hrows := kernelRows_leaf3 (-t) 1 (neg_ne_zero.mpr htne) one_ne_zero hsw hg
  have h1t : (0 : ℚ) < 1 / t := by positivity
  have hsq : ¬ ((1 / t : ℚ) * (1 / t) < 0) := not_lt.mpr (by positivity)
  have hpos : ¬ ((1 / t : ℚ) < 0) := not_lt.mpr (le_of_lt h1t)
  have hfa : (1 / t : ℚ) < 1000000000 := by
    rw [div_lt_iff ht0]
    nlinarith
  have hgt1 : (1 : ℚ) < 1 / t := by
    rw [lt_div_iff ht0]
    linarith
  have hinv0 : (0 : ℚ) ≤ t⁻¹ * t⁻¹ := by positivity
  have hts : (0 : ℚ) ≤ t := le_of_lt ht0
  have habs2 : |(t⁻¹ : ℚ)| = t⁻¹ := abs_of_pos (by positivity)
  have hfa2 : (t⁻¹ : ℚ) < 1000000000 := by
    rw [inv_lt_iff_one_lt_mul₀ ht0]
    nlinarith
  have hgt2 : (1 : ℚ) < t⁻¹ := by
    simpa [one_div] using hgt1
  have hfold : kernelRaw [-t, 1] 2 1 =
      ⟨1, [0, 1], 1, [0, 1], [[0, 1], []], [[1 / t, 1], []]⟩ := by
    simp only [kernelRaw, hrows]
    norm_num [moietyStep, dedupAppend, MAX, List.replicate_succ, div_neg,
      abs_neg, habs2, hinv0, hts, hfa2, hgt2]
    simp
  intro i hi r hr
  rw [hfold] at hi ⊢
  obtain rfl : i = 0 := by
    have hi1 : i < 1 := hi
    omega
  obtain rfl : r = 0 := by omega
  norm_num [moietyDot]
  field_simp
  rw [hgetelem]
  norm_num


unseal Rat.add Rat.mul Rat.inv Rat.sub in
theorem C1_zero_dot_no_truncation_witness :
    MIN < (1 / 2 : ℚ) ∧ (1 / 2 : ℚ) < 1 ∧
    0 < (kernelRaw [-(1 / 2 : ℚ), 1] 2 1).intKernelDim ∧ (0 : ℕ) < 1 ∧
    moietyDot [-(1 / 2 : ℚ), 1] 2
      ((kernelRaw [-(1 / 2 : ℚ), 1] 2 1).NSolutions.getD 0 [])
      ((kernelRaw [-(1 / 2 : ℚ), 1] 2 1).NSolutions2.getD 0 []) 0 = 0 :=
  ⟨by decide, by decide, by decide, by decide,
    C1_zero_dot_no_truncation (1 / 2) (by decide) (by decide) 0 (by decide) 0 (by decide)⟩

end ConservedMoieties
